import Mathlib

/-!
Verification of the atom-indexed integral provider (`common.py`).

The development shallowly embeds the two components of the module:

* the tensor `transform` utility (`numpy.einsum`-based contraction of
  selected axes of an array against a matrix `psi`), and
* the `AbstractIntegralProvider` / `IntegralProvider` classes that map
  atom subsets to shell ranges and basis-function indices and drive the
  external integral engine over shell slices.

Machine floats are modelled by exact integers (`Int`); n-dimensional
arrays are modelled either as index functions (for the transform
utility) or as a shape plus a flat row-major data buffer (for the
integral driver, whose code manipulates flat buffers and reshapes).
Fallible code returns `Except String`.
-/

namespace LocalMP2

/-! ### Tensor transform utility (`transform` in common.py)

An n-dimensional numeric array is a shape together with a total index
function; `psi` is a matrix given by its two dimensions and an entry
function.  The einsum subscripts built by the code contract each selected
axis of `o` against the FIRST index of `psi` (the letter of the axis is
reused as the row subscript of `psi`), and the new axis is indexed by the
second index of `psi`. -/

structure NDArray where
  shape : List Nat
  val : List Nat → Int

structure Mat where
  rows : Nat
  cols : Nat
  val : Nat → Nat → Int

/-- The axes argument of `transform`: "all", "f2", "l2", a single integer,
or an explicit collection of axis indices. -/
inductive AxesSpec where
  | all
  | f2
  | l2
  | idx (i : Nat)
  | listSpec (l : List Nat)

/-- Resolution of the `axes` argument performed at the top of `transform`
(`axes == "all" / "f2" / "l2" / isinstance(axes, int) / tuple(axes)`). -/
def axesResolve (n : Nat) : AxesSpec → List Nat
  | .all => List.range n
  | .f2 => [0, 1]
  | .l2 => [n - 2, n - 1]
  | .idx i => [i]
  | .listSpec l => l

/-- All assignment tuples `js` of length `k` with entries below `m`,
enumerated in the row-major order an einsum contraction sums over. -/
def tuples (m : Nat) : Nat → List (List Nat)
  | 0 => [[]]
  | k+1 => (List.range m).flatMap (fun j => (tuples m k).map (j :: ·))

/-- Overwrite the index vector `idx` at positions `axes` with the values
`js` (positionally zipped). -/
def writeAll (idx : List Nat) : List Nat → List Nat → List Nat
  | ax :: axs, j :: js => writeAll (idx.set ax j) axs js
  | _, _ => idx

/-- Product of the `psi` factors of one einsum term: for each contracted
axis `ax` with summation value `j`, the factor `psi[j, idx[ax]]`
(the code writes `psi` subscripts as old-letter followed by new-letter). -/
def prodPsi (psi : Mat) (axes js idx : List Nat) : Int :=
  ((axes.zip js).map (fun p => psi.val p.2 (idx.getD p.1 0))).prod

/-- The single fused multi-axis contraction performed by one
`numpy.einsum` call: sum over all assignments of the contracted letters. -/
def fusedEinsum (psi : Mat) (axes : List Nat) (f : List Nat → Int) : List Nat → Int :=
  fun idx =>
    ((tuples psi.rows axes.length).map
      (fun js => f (writeAll idx axes js) * prodPsi psi axes js idx)).sum

/-- The `mode == "onecall"` branch of `transform`: one einsum call over
the given resolved axes; each transformed axis gets length `psi.cols`. -/
def transformOnecall (o : NDArray) (psi : Mat) (axes : List Nat) : NDArray :=
  { shape := axes.foldl (fun s a => s.set a psi.cols) o.shape
    val := fusedEinsum psi axes o.val }

/-- `transform(o, psi, axes, mode)`.  The `"fast"` branch loops over the
resolved axes and re-invokes the transform with `mode='onecall'` on the
single axis `a` (which resolves to the axis list `[a]`); an unrecognized
mode raises `ValueError("Unknown mode: {}".format(mode))`. -/
def transform (o : NDArray) (psi : Mat) (axes : AxesSpec) (mode : String) :
    Except String NDArray :=
  let axs := axesResolve o.shape.length axes
  if mode = "fast" then
    .ok (axs.foldl (fun acc a => transformOnecall acc psi [a]) o)
  else if mode = "onecall" then
    .ok (transformOnecall o psi axs)
  else
    .error ("Unknown mode: " ++ mode)

/-! ### Sum and index helper lemmas -/

lemma getD_set_ne (l : List Nat) {i j : Nat} (v d : Nat) (h : i ≠ j) :
    (l.set i v).getD j d = l.getD j d := by
  simp [List.getD_eq_getElem?_getD, List.getElem?_set_ne h]

lemma sum_flatMap {α : Type} (l : List α) (f : α → List Int) :
    (l.flatMap f).sum = (l.map (fun x => (f x).sum)).sum := by
  induction l with
  | nil => rfl
  | cons a l ih => simp [ih]

lemma flatMap_single {α β : Type} (l : List α) (g : α → β) :
    l.flatMap (fun x => [g x]) = l.map g := by
  induction l with
  | nil => rfl
  | cons a l ih => simp [ih]

lemma listSum_swap {α β : Type} (l₁ : List α) (l₂ : List β) (g : α → β → Int) :
    (l₁.map (fun x => (l₂.map (g x)).sum)).sum
      = (l₂.map (fun y => (l₁.map (fun x => g x y)).sum)).sum := by
  induction l₁ with
  | nil => simp
  | cons a l ih =>
    simp only [List.map_cons, List.sum_cons, ih, List.sum_map_add]

/-! ### Transform utility lemmas -/

lemma writeAll_nil (idx : List Nat) : writeAll idx [] [] = idx := rfl

lemma prodPsi_nil (psi : Mat) (idx : List Nat) : prodPsi psi [] [] idx = 1 := rfl

lemma prodPsi_set_ne (psi : Mat) {a : Nat} {axes : List Nat} (js idx : List Nat)
    (j : Nat) (h : a ∉ axes) :
    prodPsi psi axes js (idx.set a j) = prodPsi psi axes js idx := by
  induction axes generalizing js with
  | nil => rfl
  | cons ax axs ih =>
    cases js with
    | nil => rfl
    | cons j' js' =>
      have hax : a ≠ ax := fun hc => h (hc ▸ List.mem_cons_self ax axs)
      have htail := ih js' (fun hc => h (List.mem_cons_of_mem ax hc))
      simp only [prodPsi, List.zip_cons_cons, List.map_cons, List.prod_cons] at htail ⊢
      rw [getD_set_ne idx j 0 hax, htail]

lemma fused_nil (psi : Mat) (f : List Nat → Int) : fusedEinsum psi [] f = f := by
  funext idx
  simp [fusedEinsum, tuples, writeAll, prodPsi]

lemma fused_single (psi : Mat) (a : Nat) (f : List Nat → Int) (idx : List Nat) :
    fusedEinsum psi [a] f idx
      = ((List.range psi.rows).map
          (fun j => f (idx.set a j) * psi.val j (idx.getD a 0))).sum := by
  have h1 : (List.range psi.rows).flatMap (fun j => [[j]])
      = (List.range psi.rows).map (fun j => [j]) := flatMap_single _ _
  simp only [fusedEinsum, List.length_cons, List.length_nil, tuples, List.map_cons,
    List.map_nil, h1, List.map_map]
  apply congrArg
  apply List.map_congr_left
  intro j _
  simp [writeAll, prodPsi, List.getD_eq_getElem?_getD]

lemma fused_cons (psi : Mat) {a : Nat} {l : List Nat} (f : List Nat → Int)
    (h : a ∉ l) :
    fusedEinsum psi (a :: l) f = fusedEinsum psi [a] (fusedEinsum psi l f) := by
  funext idx
  rw [fused_single]
  simp only [fusedEinsum, List.length_cons, tuples]
  rw [List.map_flatMap, sum_flatMap]
  apply congrArg
  apply List.map_congr_left
  intro j _
  simp only [List.map_map]
  rw [← List.sum_map_mul_right]
  apply congrArg
  apply List.map_congr_left
  intro js _
  simp only [Function.comp_apply]
  have h1 : writeAll idx (a :: l) (j :: js) = writeAll (idx.set a j) l js := rfl
  have h2 : prodPsi psi (a :: l) (j :: js) idx
      = psi.val j (idx.getD a 0) * prodPsi psi l js idx := by
    simp [prodPsi]
  rw [h1, h2, prodPsi_set_ne psi js idx j h]
  ring

lemma single_comm (psi : Mat) {a b : Nat} (f : List Nat → Int) (hab : a ≠ b) :
    fusedEinsum psi [a] (fusedEinsum psi [b] f)
      = fusedEinsum psi [b] (fusedEinsum psi [a] f) := by
  funext idx
  rw [fused_single, fused_single]
  have hL : ∀ j ∈ List.range psi.rows,
      fusedEinsum psi [b] f (idx.set a j) * psi.val j (idx.getD a 0)
        = ((List.range psi.rows).map
            (fun k => f ((idx.set a j).set b k)
              * psi.val k (idx.getD b 0) * psi.val j (idx.getD a 0))).sum := by
    intro j _
    rw [fused_single, getD_set_ne idx j 0 hab, ← List.sum_map_mul_right]
  have hR : ∀ k ∈ List.range psi.rows,
      fusedEinsum psi [a] f (idx.set b k) * psi.val k (idx.getD b 0)
        = ((List.range psi.rows).map
            (fun j => f ((idx.set b k).set a j)
              * psi.val j (idx.getD a 0) * psi.val k (idx.getD b 0))).sum := by
    intro k _
    rw [fused_single, getD_set_ne idx k 0 (Ne.symm hab), ← List.sum_map_mul_right]
  rw [List.map_congr_left hL, List.map_congr_left hR]
  rw [listSum_swap (List.range psi.rows) (List.range psi.rows)
    (fun j k => f ((idx.set a j).set b k)
      * psi.val k (idx.getD b 0) * psi.val j (idx.getD a 0))]
  apply congrArg
  apply List.map_congr_left
  intro k _
  apply congrArg
  apply List.map_congr_left
  intro j _
  rw [List.set_comm _ _ _ hab]
  ring

/-- Sequential one-axis-at-a-time contraction on index functions (the
`mode='fast'` loop body, extracted at the level of value functions). -/
def seqTransform (psi : Mat) (axes : List Nat) (f : List Nat → Int) : List Nat → Int :=
  axes.foldl (fun g a => fusedEinsum psi [a] g) f

lemma seq_single_comm (psi : Mat) {a : Nat} {l : List Nat} (f : List Nat → Int)
    (h : a ∉ l) :
    seqTransform psi l (fusedEinsum psi [a] f) = fusedEinsum psi [a] (seqTransform psi l f) := by
  induction l generalizing f with
  | nil => rfl
  | cons b l' ih =>
    have hab : a ≠ b := fun hc => h (hc ▸ List.mem_cons_self b l')
    have hal' : a ∉ l' := fun hc => h (List.mem_cons_of_mem b hc)
    simp only [seqTransform, List.foldl_cons]
    rw [← single_comm psi f hab]
    exact ih (fusedEinsum psi [b] f) hal'

lemma fused_eq_seq (psi : Mat) {axes : List Nat} (f : List Nat → Int)
    (h : axes.Nodup) :
    fusedEinsum psi axes f = seqTransform psi axes f := by
  induction axes generalizing f with
  | nil => rw [fused_nil]; rfl
  | cons a l ih =>
    have hal : a ∉ l := (List.nodup_cons.mp h).1
    have hl : l.Nodup := (List.nodup_cons.mp h).2
    rw [fused_cons psi f hal]
    calc fusedEinsum psi [a] (fusedEinsum psi l f)
        = fusedEinsum psi [a] (seqTransform psi l f) := by rw [ih f hl]
      _ = seqTransform psi l (fusedEinsum psi [a] f) := (seq_single_comm psi f hal).symm
      _ = seqTransform psi (a :: l) f := rfl

lemma fast_foldl (psi : Mat) (axs : List Nat) (o : NDArray) :
    axs.foldl (fun acc a => transformOnecall acc psi [a]) o
      = { shape := axs.foldl (fun s a => s.set a psi.cols) o.shape
          val := seqTransform psi axs o.val } := by
  induction axs generalizing o with
  | nil => rfl
  | cons a l ih =>
    simp only [List.foldl_cons]
    rw [ih]
    rfl

/-- Claim C6: for every n-dimensional array, transform matrix and axis
specification (resolving to pairwise-distinct axes, as any valid einsum
subscript assignment requires), transform with mode "onecall" (single
fused contraction) and with mode "fast" (sequential one-axis-at-a-time
contraction, the default) produce equal results. -/
theorem claim_C6_transform_modes_agree (o : NDArray) (psi : Mat) (axes : AxesSpec)
    (h : (axesResolve o.shape.length axes).Nodup) :
    transform o psi axes "onecall" = transform o psi axes "fast" := by
  have h1 : transform o psi axes "onecall"
      = .ok (transformOnecall o psi (axesResolve o.shape.length axes)) := by
    simp [transform]
  have h2 : transform o psi axes "fast"
      = .ok ((axesResolve o.shape.length axes).foldl
          (fun acc a => transformOnecall acc psi [a]) o) := by
    simp [transform]
  rw [h1, h2, fast_foldl]
  simp only [transformOnecall]
  rw [fused_eq_seq psi o.val h]

/-- Witness for claim C6 at a concrete 2x2 array and matrix with all axes
transformed. -/
theorem claim_C6_witness :
    (axesResolve 2 AxesSpec.all).Nodup
    ∧ transform ⟨[2, 2], fun idx => (idx.getD 0 0 : Int) + 2 * idx.getD 1 0⟩
        ⟨2, 2, fun i j => (i : Int) + j⟩ AxesSpec.all "onecall"
      = transform ⟨[2, 2], fun idx => (idx.getD 0 0 : Int) + 2 * idx.getD 1 0⟩
        ⟨2, 2, fun i j => (i : Int) + j⟩ AxesSpec.all "fast" :=
  ⟨by decide, claim_C6_transform_modes_agree _ _ _ (by decide)⟩

/-- Claim C8: transform raises an error if and only if the mode argument
is neither "fast" nor "onecall"; the error is the descriptive
unknown-mode message, and for the two recognized modes no local
validation error is raised. -/
theorem claim_C8_transform_mode_validation (o : NDArray) (psi : Mat) (axes : AxesSpec)
    (mode : String) :
    ((∃ t, transform o psi axes mode = .ok t) ↔ (mode = "fast" ∨ mode = "onecall"))
    ∧ ((transform o psi axes mode = .error ("Unknown mode: " ++ mode))
        ↔ ¬(mode = "fast" ∨ mode = "onecall")) := by
  by_cases h1 : mode = "fast"
  · subst h1; simp [transform]
  · by_cases h2 : mode = "onecall"
    · subst h2; simp [transform]
    · simp [transform, h1, h2]

/-! ### Molecule model

The provider holds a `pyscf.gto.mole.Mole` object, used only through:
`mol._bas` (an indexed list of shells, each tagged by its owning atom via
`gto.ATOM_OF`), `mol.nbas` (the shell count), `mol.bas_len_cart(i)` (the
basis-function count of shell `i`), `mol.ao_labels` (the owning atom of
each basis function, enumerated shell by shell in shell order), and
`mol.intor(name, shls_slice=...)` (the external integral engine,
returning a flat numeric buffer).  A shell is modelled as the pair
(owning atom, basis-function count); `ao_labels` is derived from the
shell list as pyscf enumerates it; the engine is an opaque function from
the integral name and the flattened shell slice to a flat buffer. -/

structure Mole where
  bas : List (Nat × Nat)
  engine : String → List Nat → List Int

def Mole.nbas (mol : Mole) : Nat := mol.bas.length

/-- `shell[gto.ATOM_OF]` of shell `i`. -/
def Mole.shellAtom (mol : Mole) (i : Nat) : Nat := (mol.bas.getD i (0, 0)).1

/-- `mol.bas_len_cart(i)`. -/
def Mole.basLen (mol : Mole) (i : Nat) : Nat := (mol.bas.getD i (0, 0)).2

/-- `__ao_labels_at__`: the owning atom of each basis function, in
molecule-global basis-function order (shell by shell). -/
def Mole.aoLabels (mol : Mole) : List Nat :=
  mol.bas.flatMap (fun p => List.replicate p.2 p.1)

/-- Index of the first basis function of shell `j` (prefix sum of
per-shell basis sizes). -/
def Mole.basOffset (mol : Mole) (j : Nat) : Nat :=
  ((mol.bas.take j).map Prod.snd).sum

/-- `sum(mol.bas_len_cart(i) for i in range(r.1, r.2))`. -/
def rangeSize (mol : Mole) (r : Nat × Nat) : Nat :=
  ((List.range' r.1 (r.2 - r.1)).map mol.basLen).sum

/-! ### `get_atom_basis`

The numpy semantics, traced operation by operation:

* `domain is None`, `atoms is None`: `numpy.arange(len(ao))`.
* `domain is None`, `atoms` a list: `mask` counts per index `i` how many
  entries of `atoms` equal `ao[i]`; `numpy.nonzero(mask)[0]` of the 1-D
  count vector is the filter of `range(len(ao))` by membership.
* `domain` a list: `ao = ao[numpy.argwhere(mask)]` keeps, in order, the
  VALUES of `ao` whose atom lies in `domain` — as a column array of
  shape (k, 1).  With `atoms is None` the result is `arange(k)`.  With
  `atoms` a list, the comparison broadcasts to shape (k, 1, len(atoms)),
  `.sum(axis=1)` gives the (k, len(atoms)) match matrix, and
  `numpy.nonzero(mask)[0]` lists the row index `j` once per entry of
  `atoms` matching `pool[j]`, in row-major order. -/
def get_atom_basis (mol : Mole) (atoms : Option (List Nat))
    (domain : Option (List Nat)) : List Nat :=
  match domain with
  | none =>
    match atoms with
    | none => List.range mol.aoLabels.length
    | some l =>
      (List.range mol.aoLabels.length).filter
        (fun i => decide (mol.aoLabels.getD i 0 ∈ l))
  | some d =>
    let pool := mol.aoLabels.filter (fun v => decide (v ∈ d))
    match atoms with
    | none => List.range pool.length
    | some l =>
      (List.range pool.length).flatMap
        (fun j => (l.filter (fun a => decide (pool.getD j 0 = a))).map (fun _ => j))

/-- Modelled from the spec: the narrow-then-filter contract of
`get_atom_basis` with a parent domain — the candidate pool is first
narrowed to the basis functions whose owning atom lies in `domain`, and
the `atoms` membership filter is then applied over positions of that
narrowed pool. -/
def get_atom_basis_spec (mol : Mole) (atoms : List Nat) (d : List Nat) : List Nat :=
  let pool := mol.aoLabels.filter (fun v => decide (v ∈ d))
  (List.range pool.length).filter (fun j => decide (pool.getD j 0 ∈ atoms))

lemma flatMap_congr {α β : Type} {l : List α} {f g : α → List β}
    (h : ∀ x ∈ l, f x = g x) : l.flatMap f = l.flatMap g := by
  induction l with
  | nil => rfl
  | cons a l ih =>
    simp only [List.flatMap_cons]
    rw [h a (List.mem_cons_self a l), ih (fun x hx => h x (List.mem_cons_of_mem a hx))]

lemma matches_map_const {l : List Nat} (v j : Nat) (hl : l.Nodup) :
    (l.filter (fun a => decide (v = a))).map (fun _ => j)
      = if v ∈ l then [j] else [] := by
  induction l with
  | nil => simp
  | cons b l ih =>
    rcases List.nodup_cons.mp hl with ⟨hb, hl'⟩
    by_cases hv : v = b
    · subst hv
      have hfe : l.filter (fun a => decide (v = a)) = [] := by
        rw [List.filter_eq_nil_iff]
        intro a ha
        simp only [decide_eq_true_eq]
        exact fun hc => hb (hc ▸ ha)
      simp [List.filter_cons, hfe]
    · simp [List.filter_cons, hv, ih hl', List.mem_cons]

lemma flatMap_if_singleton (L : List Nat) (p : Nat → Prop) [DecidablePred p] :
    (L.flatMap (fun x => if p x then [x] else []))
      = L.filter (fun x => decide (p x)) := by
  induction L with
  | nil => rfl
  | cons a L ih =>
    by_cases h : p a <;> simp [List.filter_cons, h, ih]

/-- Claim C2: with a parent domain, the candidate index pool of
`get_atom_basis` is first narrowed to basis functions whose owning atom
lies in `domain`, and the `atoms` filter is then applied over that
domain-restricted index space (positions relative to the narrowed pool,
matching the narrow-then-filter contract `get_atom_basis_spec`); with
`atoms = None` all indices of the narrowed pool are returned, and all
global indices when `domain` is also `None`.  (`atoms` is a subset, so
it carries no duplicate atom identifiers.) -/
theorem claim_C2_get_atom_basis_domain_order (mol : Mole) (atoms d : List Nat)
    (hn : atoms.Nodup) :
    get_atom_basis mol (some atoms) (some d) = get_atom_basis_spec mol atoms d
    ∧ get_atom_basis mol none (some d)
        = List.range ((mol.aoLabels.filter (fun v => decide (v ∈ d))).length)
    ∧ get_atom_basis mol none none = List.range mol.aoLabels.length := by
  refine ⟨?_, rfl, rfl⟩
  simp only [get_atom_basis, get_atom_basis_spec]
  rw [flatMap_congr (g := fun j =>
    if (mol.aoLabels.filter (fun v => decide (v ∈ d))).getD j 0 ∈ atoms then [j] else [])
    (fun j _ => matches_map_const _ j hn)]
  exact flatMap_if_singleton _ _

/-- Witness for claim C2 at a concrete two-shell molecule, overlapping
domain and atoms. -/
theorem claim_C2_witness :
    get_atom_basis ⟨[(0, 2), (1, 1), (2, 1)], fun _ _ => []⟩ (some [1, 2]) (some [0, 1])
      = get_atom_basis_spec ⟨[(0, 2), (1, 1), (2, 1)], fun _ _ => []⟩ [1, 2] [0, 1] :=
  (claim_C2_get_atom_basis_domain_order ⟨[(0, 2), (1, 1), (2, 1)], fun _ _ => []⟩
    [1, 2] [0, 1] (by decide)).1

/-- Claim C10: for every atoms argument (with no parent domain), the
returned basis-function indices are strictly increasing and free of
duplicates, even when the atoms list itself repeats atom identifiers. -/
theorem claim_C10_get_atom_basis_sorted (mol : Mole) (atoms : Option (List Nat)) :
    List.Pairwise (· < ·) (get_atom_basis mol atoms none)
    ∧ (get_atom_basis mol atoms none).Nodup := by
  have hp : List.Pairwise (· < ·) (get_atom_basis mol atoms none) := by
    cases atoms with
    | none => simpa [get_atom_basis] using List.pairwise_lt_range _
    | some l => exact List.Pairwise.filter _ (List.pairwise_lt_range _)
  exact ⟨hp, hp.imp (fun h => Nat.ne_of_lt h)⟩

/-! ### `shell_ranges`

The `atoms` argument of `shell_ranges` (and of the atom-indexed query
layer) is `None`, a bare atom id, or a list of atom ids. -/

inductive AtomSel where
  | noneSel
  | intSel (a : Nat)
  | listSel (l : List Nat)
deriving DecidableEq

/-- One iteration of the loop body of `shell_ranges` for a selected shell
`i`: extend the last range when it ends at `i`, else append `(i, i+1)`. -/
def addShell (result : List (Nat × Nat)) (i : Nat) : List (Nat × Nat) :=
  match result.getLast? with
  | none => result ++ [(i, i + 1)]
  | some (f, t) => if t ≠ i then result ++ [(i, i + 1)] else result.dropLast ++ [(f, t + 1)]

/-- The `for i, shell in enumerate(self.mol._bas)` loop of
`shell_ranges`, with explicit position counter and accumulator. -/
def shellScan (atoms : List Nat) : List (Nat × Nat) → Nat → List (Nat × Nat) → List (Nat × Nat)
  | [], _, acc => acc
  | sh :: rest, i, acc =>
      shellScan atoms rest (i + 1) (if sh.1 ∈ atoms then addShell acc i else acc)

def shell_ranges (mol : Mole) : AtomSel → List (Nat × Nat)
  | .noneSel => [(0, mol.nbas)]
  | .intSel a => shellScan [a] mol.bas 0 []
  | .listSel l => shellScan l mol.bas 0 []

/-- The shell indices covered by a shell range, in order. -/
def expandR (p : Nat × Nat) : List Nat := List.range' p.1 (p.2 - p.1)

/-- The selected positions of the scan, in scan order. -/
def selIdx (atoms : List Nat) : List (Nat × Nat) → Nat → List Nat
  | [], _ => []
  | sh :: rest, i => (if sh.1 ∈ atoms then [i] else []) ++ selIdx atoms rest (i + 1)

lemma addShell_facts (acc : List (Nat × Nat)) (i : Nat)
    (hA : ∀ p ∈ acc, p.1 < p.2 ∧ p.2 ≤ i)
    (hC : List.Chain' (fun p q => p.2 < q.1) acc) :
    (addShell acc i).flatMap expandR = acc.flatMap expandR ++ [i]
    ∧ (∀ p ∈ addShell acc i, p.1 < p.2 ∧ p.2 ≤ i + 1)
    ∧ List.Chain' (fun p q => p.2 < q.1) (addShell acc i) := by
  match hacc : acc.getLast? with
  | none =>
    have hnil : acc = [] := List.getLast?_eq_none_iff.mp hacc
    subst hnil
    refine ⟨?_, ?_, ?_⟩
    · simp [addShell, expandR, List.range'_succ]
    · intro p hp
      simp only [addShell, List.getLast?_nil, List.nil_append, List.mem_singleton] at hp
      subst hp
      omega
    · simp [addShell]
  | some (f, t) =>
    have hne : acc ≠ [] := by
      intro hc
      rw [hc] at hacc
      exact Option.noConfusion hacc
    have hmem : (f, t) ∈ acc := by
      have := List.getLast?_eq_getLast acc hne
      rw [hacc] at this
      have hlast : acc.getLast hne = (f, t) := (Option.some.injEq _ _).mp this.symm
      exact hlast ▸ List.getLast_mem hne
    have hft : f < t ∧ t ≤ i := hA _ hmem
    have hdecomp : acc.dropLast ++ [(f, t)] = acc := by
      have := List.getLast?_eq_getLast acc hne
      rw [hacc] at this
      have hlast : acc.getLast hne = (f, t) := (Option.some.injEq _ _).mp this.symm
      rw [← hlast]
      exact List.dropLast_append_getLast hne
    by_cases hti : t = i
    · subst hti
      have haddeq : addShell acc t = acc.dropLast ++ [(f, t + 1)] := by
        simp [addShell, hacc]
      have hCd : List.Chain' (fun p q : Nat × Nat => p.2 < q.1) acc.dropLast
          ∧ ∀ x ∈ acc.dropLast.getLast?, x.2 < f := by
        have := List.chain'_append.mp (hdecomp ▸ hC)
        exact ⟨this.1, fun x hx => by
          have := this.2.2 x hx (f, t) rfl
          exact this⟩
      refine ⟨?_, ?_, ?_⟩
      · rw [haddeq]
        conv_lhs => rw [List.flatMap_append]
        conv_rhs => rw [← hdecomp, List.flatMap_append]
        rw [List.append_assoc]
        congr 1
        simp only [List.flatMap_cons, List.flatMap_nil]
        have h1 : expandR (f, t + 1) = expandR (f, t) ++ [t] := by
          simp only [expandR]
          have h2 : List.range' f (t - f) ++ List.range' (f + 1 * (t - f)) 1
              = List.range' f (1 + (t - f)) := List.range'_append f (t - f) 1 1
          have h3 : f + 1 * (t - f) = t := by omega
          have h4 : 1 + (t - f) = t + 1 - f := by omega
          rw [h3, h4] at h2
          rw [← h2]
          simp [List.range'_succ]
        rw [h1]
        simp
      · intro p hp
        rw [haddeq] at hp
        rcases List.mem_append.mp hp with hp | hp
        · have := hA _ (List.Sublist.mem hp (List.dropLast_sublist acc))
          omega
        · simp only [List.mem_singleton] at hp
          subst hp
          omega
      · rw [haddeq]
        rw [List.chain'_append]
        refine ⟨hCd.1, List.chain'_singleton _, fun x hx y hy => ?_⟩
        simp only [List.head?_cons, Option.mem_def, Option.some.injEq] at hy
        subst hy
        exact hCd.2 x hx
    · have hlt : t < i := by omega
      have haddeq : addShell acc i = acc ++ [(i, i + 1)] := by
        simp [addShell, hacc, hti]
      refine ⟨?_, ?_, ?_⟩
      · rw [haddeq, List.flatMap_append]
        simp [expandR, List.range'_succ]
      · intro p hp
        rw [haddeq] at hp
        rcases List.mem_append.mp hp with hp | hp
        · have := hA _ hp
          omega
        · simp only [List.mem_singleton] at hp
          subst hp
          omega
      · rw [haddeq, List.chain'_append]
        refine ⟨hC, List.chain'_singleton _, fun x hx y hy => ?_⟩
        simp only [List.head?_cons, Option.mem_def, Option.some.injEq] at hy
        subst hy
        rw [hacc] at hx
        simp only [Option.mem_def, Option.some.injEq] at hx
        subst hx
        simpa using hlt

lemma shellScan_spec (atoms : List Nat) (L : List (Nat × Nat)) :
    ∀ (i : Nat) (acc : List (Nat × Nat)),
      (∀ p ∈ acc, p.1 < p.2 ∧ p.2 ≤ i) →
      List.Chain' (fun p q => p.2 < q.1) acc →
      ((shellScan atoms L i acc).flatMap expandR
          = acc.flatMap expandR ++ selIdx atoms L i)
      ∧ (∀ p ∈ shellScan atoms L i acc, p.1 < p.2 ∧ p.2 ≤ i + L.length)
      ∧ List.Chain' (fun p q => p.2 < q.1) (shellScan atoms L i acc) := by
  induction L with
  | nil =>
    intro i acc hA hC
    refine ⟨by simp [shellScan, selIdx], ?_, hC⟩
    intro p hp
    have := hA p hp
    omega
  | cons sh rest ih =>
    intro i acc hA hC
    by_cases hsel : sh.1 ∈ atoms
    · have hadd := addShell_facts acc i hA hC
      have hstep := ih (i + 1) (addShell acc i) hadd.2.1 hadd.2.2
      have hscan : shellScan atoms (sh :: rest) i acc
          = shellScan atoms rest (i + 1) (addShell acc i) := by
        simp [shellScan, hsel]
      refine ⟨?_, ?_, ?_⟩
      · rw [hscan, hstep.1, hadd.1]
        simp [selIdx, hsel, List.append_assoc]
      · intro p hp
        rw [hscan] at hp
        have := hstep.2.1 p hp
        simp only [List.length_cons]
        omega
      · rw [hscan]
        exact hstep.2.2
    · have hA1 : ∀ p ∈ acc, p.1 < p.2 ∧ p.2 ≤ i + 1 := by
        intro p hp
        have := hA p hp
        omega
      have hstep := ih (i + 1) acc hA1 hC
      have hscan : shellScan atoms (sh :: rest) i acc
          = shellScan atoms rest (i + 1) acc := by
        simp [shellScan, hsel]
      refine ⟨?_, ?_, ?_⟩
      · rw [hscan, hstep.1]
        simp [selIdx, hsel]
      · intro p hp
        rw [hscan] at hp
        have := hstep.2.1 p hp
        simp only [List.length_cons]
        omega
      · rw [hscan]
        exact hstep.2.2

lemma selIdx_shift (atoms : List Nat) (L : List (Nat × Nat)) :
    ∀ i, selIdx atoms L (i + 1) = (selIdx atoms L i).map (· + 1) := by
  induction L with
  | nil => intro i; rfl
  | cons sh rest ih =>
    intro i
    by_cases hsel : sh.1 ∈ atoms <;> simp [selIdx, hsel, ih (i + 1)]

lemma selIdx_zero (atoms : List Nat) (L : List (Nat × Nat)) :
    selIdx atoms L 0
      = (List.range L.length).filter (fun j => decide ((L.getD j (0, 0)).1 ∈ atoms)) := by
  induction L with
  | nil => rfl
  | cons sh rest ih =>
    have h1 : selIdx atoms rest 1 = (selIdx atoms rest 0).map (· + 1) :=
      selIdx_shift atoms rest 0
    simp only [selIdx, h1, ih, List.length_cons, List.range_succ_eq_map,
      List.filter_cons, List.filter_map]
    by_cases hsel : sh.1 ∈ atoms <;>
      simp [hsel, Function.comp_def, Nat.succ_eq_add_one, List.getD_cons_succ,
        List.getD_cons_zero, List.filter_map]

/-- Claim C3: for every atom subset, `shell_ranges` returns an ordered
list of disjoint maximal contiguous intervals (each nonempty, in
increasing order with a strict gap between consecutive intervals, all
within the shell list) covering exactly the shell indices whose owning
atom is in the subset; `shell_ranges(None)` is exactly the single range
`(0, nbas)`; a bare atom id behaves as its one-element list. -/
theorem claim_C3_shell_ranges (mol : Mole) (atoms : List Nat) :
    ((shell_ranges mol (.listSel atoms)).flatMap expandR
        = (List.range mol.nbas).filter (fun j => decide (mol.shellAtom j ∈ atoms)))
    ∧ List.Chain' (fun p q => p.2 < q.1) (shell_ranges mol (.listSel atoms))
    ∧ (∀ p ∈ shell_ranges mol (.listSel atoms), p.1 < p.2 ∧ p.2 ≤ mol.nbas)
    ∧ shell_ranges mol .noneSel = [(0, mol.nbas)]
    ∧ (∀ a : Nat, shell_ranges mol (.intSel a) = shell_ranges mol (.listSel [a])) := by
  have h := shellScan_spec atoms mol.bas 0 [] (by simp) (by simp)
  refine ⟨?_, h.2.2, ?_, rfl, fun a => rfl⟩
  · have h1 := h.1
    simp only [List.flatMap_nil, List.nil_append] at h1
    have h2 : shell_ranges mol (.listSel atoms) = shellScan atoms mol.bas 0 [] := rfl
    rw [h2, h1, selIdx_zero]
    rfl
  · intro p hp
    have := h.2.1 p hp
    simp only [Nat.zero_add] at this
    exact ⟨this.1, this.2⟩

/-! ### Consistency of `get_atom_basis` with `shell_ranges` (claim C7) -/

lemma filtflat_list (atoms : List Nat) (bas : List (Nat × Nat)) :
    (List.range (bas.flatMap (fun p => List.replicate p.2 p.1)).length).filter
        (fun i => decide ((bas.flatMap (fun p => List.replicate p.2 p.1)).getD i 0 ∈ atoms))
      = ((List.range bas.length).filter
            (fun j => decide ((bas.getD j (0, 0)).1 ∈ atoms))).flatMap
          (fun j => List.range' (((bas.take j).map Prod.snd).sum) ((bas.getD j (0, 0)).2)) := by
  induction bas with
  | nil => rfl
  | cons hd rest ih =>
    obtain ⟨a, sz⟩ := hd
    have hlen : ((a, sz) :: rest).flatMap (fun p => List.replicate p.2 p.1)
        = List.replicate sz a ++ rest.flatMap (fun p => List.replicate p.2 p.1) := by
      simp
    set ao' := rest.flatMap (fun p => List.replicate p.2 p.1) with hao'
    have hlen2 : (((a, sz) :: rest).flatMap (fun p => List.replicate p.2 p.1)).length
        = sz + ao'.length := by
      rw [hlen]
      simp
    have hLHS : (List.range (((a, sz) :: rest).flatMap
          (fun p => List.replicate p.2 p.1)).length).filter
          (fun i => decide (((( a, sz) :: rest).flatMap
            (fun p => List.replicate p.2 p.1)).getD i 0 ∈ atoms))
        = (List.range sz).filter (fun _ => decide (a ∈ atoms))
          ++ ((List.range ao'.length).filter
              (fun i => decide (ao'.getD i 0 ∈ atoms))).map (fun x => sz + x) := by
      rw [hlen2, List.range_add, List.filter_append]
      congr 1
      · apply List.filter_congr
        intro i hi
        have hisz : i < sz := List.mem_range.mp hi
        have hget : ((( a, sz) :: rest).flatMap
            (fun p => List.replicate p.2 p.1)).getD i 0 = a := by
          rw [hlen, List.getD_eq_getElem?_getD, List.getElem?_append]
          simp [List.length_replicate, hisz, List.getElem?_replicate]
        rw [hget]
      · rw [List.filter_map]
        have hfc : ((fun i => decide (((( a, sz) :: rest).flatMap
              (fun p => List.replicate p.2 p.1)).getD i 0 ∈ atoms)) ∘ (fun x => sz + x))
            = (fun i => decide (ao'.getD i 0 ∈ atoms)) := by
          funext i
          have hget : ((( a, sz) :: rest).flatMap
              (fun p => List.replicate p.2 p.1)).getD (sz + i) 0 = ao'.getD i 0 := by
            rw [hlen, List.getD_eq_getElem?_getD, List.getElem?_append,
              List.getD_eq_getElem?_getD]
            simp [List.length_replicate]
          simp only [Function.comp_apply, hget]
        rw [hfc]
    have hbcons0 :
        List.range' ((((( a, sz) :: rest)).take 0).map Prod.snd).sum
            (((( a, sz) :: rest)).getD 0 (0, 0)).2 = List.range sz :=
      (List.range_eq_range' sz).symm
    have hbconsS : ∀ j : Nat,
        List.range' ((((( a, sz) :: rest)).take (j + 1)).map Prod.snd).sum
            (((( a, sz) :: rest)).getD (j + 1) (0, 0)).2
          = List.map (fun x => sz + x)
              (List.range' ((rest.take j).map Prod.snd).sum ((rest.getD j (0, 0)).2)) := by
      intro j
      rw [List.take_succ_cons]
      simp only [List.map_cons, List.sum_cons, List.getD_cons_succ]
      exact (List.map_add_range' sz _ _ 1).symm
    have hRHS : ((List.range ((a, sz) :: rest).length).filter
          (fun j => decide (((( a, sz) :: rest).getD j (0, 0)).1 ∈ atoms))).flatMap
          (fun j => List.range' ((((( a, sz) :: rest)).take j).map Prod.snd).sum
            (((( a, sz) :: rest)).getD j (0, 0)).2)
        = (List.range sz).filter (fun _ => decide (a ∈ atoms))
          ++ (((List.range rest.length).filter
                (fun j => decide ((rest.getD j (0, 0)).1 ∈ atoms))).flatMap
              (fun j => List.range' ((rest.take j).map Prod.snd).sum
                ((rest.getD j (0, 0)).2))).map (fun x => sz + x) := by
      have hl : ((a, sz) :: rest).length = rest.length + 1 := rfl
      rw [hl, List.range_succ_eq_map, List.filter_cons]
      have hfilt : (List.range rest.length).filter
            ((fun j => decide (((( a, sz) :: rest).getD j (0, 0)).1 ∈ atoms)) ∘ Nat.succ)
          = (List.range rest.length).filter
            (fun j => decide ((rest.getD j (0, 0)).1 ∈ atoms)) := by
        apply List.filter_congr
        intro j _
        simp [Function.comp_apply, Nat.succ_eq_add_one, List.getD_cons_succ]
      have htail : ((List.range rest.length).map Nat.succ).filter
            (fun j => decide (((( a, sz) :: rest).getD j (0, 0)).1 ∈ atoms))
          = ((List.range rest.length).filter
              (fun j => decide ((rest.getD j (0, 0)).1 ∈ atoms))).map Nat.succ := by
        rw [List.filter_map, hfilt]
      have htailflat : (((List.range rest.length).filter
              (fun j => decide ((rest.getD j (0, 0)).1 ∈ atoms))).map Nat.succ).flatMap
            (fun j => List.range' ((((( a, sz) :: rest)).take j).map Prod.snd).sum
              (((( a, sz) :: rest)).getD j (0, 0)).2)
          = (((List.range rest.length).filter
                (fun j => decide ((rest.getD j (0, 0)).1 ∈ atoms))).flatMap
              (fun j => List.range' ((rest.take j).map Prod.snd).sum
                ((rest.getD j (0, 0)).2))).map (fun x => sz + x) := by
        rw [List.flatMap_map, List.map_flatMap]
        apply flatMap_congr
        intro j _
        simp only [Nat.succ_eq_add_one]
        exact hbconsS j
      by_cases hsel : a ∈ atoms
      · rw [if_pos (by simp [hsel])]
        rw [List.flatMap_cons, hbcons0, htail, htailflat]
        have hfull : (List.range sz).filter (fun _ => decide (a ∈ atoms)) = List.range sz := by
          simp [hsel]
        rw [hfull]
      · rw [if_neg (by simp [hsel])]
        rw [htail, htailflat]
        have hempty : (List.range sz).filter (fun _ => decide (a ∈ atoms)) = [] := by
          simp [hsel]
        rw [hempty, List.nil_append]
    rw [hLHS, hRHS, ih]

lemma filtflat (mol : Mole) (atoms : List Nat) :
    get_atom_basis mol (some atoms) none
      = ((List.range mol.nbas).filter
            (fun j => decide (mol.shellAtom j ∈ atoms))).flatMap
          (fun j => List.range' (mol.basOffset j) (mol.basLen j)) :=
  filtflat_list atoms mol.bas

lemma basOffset_succ (mol : Mole) (s : Nat) :
    mol.basOffset (s + 1) = mol.basOffset s + mol.basLen s := by
  by_cases h : s < mol.bas.length
  · have h1 : mol.bas.take (s + 1) = mol.bas.take s ++ [mol.bas[s]] := by
      rw [List.take_succ, List.getElem?_eq_getElem h]
      rfl
    have h2 : mol.basLen s = mol.bas[s].2 := by
      show (mol.bas.getD s (0, 0)).2 = _
      rw [List.getD_eq_getElem?_getD, List.getElem?_eq_getElem h]
      rfl
    show ((mol.bas.take (s + 1)).map Prod.snd).sum
        = ((mol.bas.take s).map Prod.snd).sum + mol.basLen s
    rw [h1, h2, List.map_append, List.sum_append]
    rfl
  · have h1 : mol.bas.length ≤ s := Nat.le_of_not_lt h
    have h2 : mol.bas.take s = mol.bas := List.take_of_length_le h1
    have h3 : mol.bas.take (s + 1) = mol.bas := List.take_of_length_le (by omega)
    have h4 : mol.basLen s = 0 := by
      simp only [Mole.basLen, List.getD_eq_getElem?_getD]
      rw [List.getElem?_eq_none (by omega)]
      rfl
    simp [Mole.basOffset, h2, h3, h4]

lemma basOffset_le (mol : Mole) (k s : Nat) :
    mol.basOffset s ≤ mol.basOffset (s + k) := by
  induction k with
  | zero => exact Nat.le_refl _
  | succ k ih =>
    have h1 : s + (k + 1) = (s + k) + 1 := by omega
    rw [h1, basOffset_succ]
    omega

lemma blocks_contig (mol : Mole) :
    ∀ (k s : Nat),
      (List.range' s k).flatMap (fun j => List.range' (mol.basOffset j) (mol.basLen j))
        = List.range' (mol.basOffset s) (mol.basOffset (s + k) - mol.basOffset s) := by
  intro k
  induction k with
  | zero => intro s; simp
  | succ k ih =>
    intro s
    have h1 : List.range' s (k + 1) = s :: List.range' (s + 1) k := List.range'_succ s k 1
    rw [h1, List.flatMap_cons, ih (s + 1)]
    have h2 : List.range' (mol.basOffset s) (mol.basLen s)
          ++ List.range' (mol.basOffset s + 1 * mol.basLen s)
              (mol.basOffset (s + 1 + k) - mol.basOffset (s + 1))
        = List.range' (mol.basOffset s)
            ((mol.basOffset (s + 1 + k) - mol.basOffset (s + 1)) + mol.basLen s) :=
      List.range'_append _ _ _ _
    have h3 : mol.basOffset s + 1 * mol.basLen s = mol.basOffset (s + 1) := by
      rw [basOffset_succ]
      omega
    have h4 : mol.basOffset (s + 1) ≤ mol.basOffset (s + 1 + k) := basOffset_le mol k (s + 1)
    have h5 : mol.basOffset s + mol.basLen s = mol.basOffset (s + 1) := (basOffset_succ mol s).symm
    have h6 : (mol.basOffset (s + 1 + k) - mol.basOffset (s + 1)) + mol.basLen s
        = mol.basOffset (s + (k + 1)) - mol.basOffset s := by
      have h7 : s + 1 + k = s + (k + 1) := by omega
      rw [h7] at h4 ⊢
      omega
    rw [h3] at h2
    rw [h2, h6]

lemma aoLen_eq (mol : Mole) : mol.aoLabels.length = mol.basOffset mol.nbas := by
  simp only [Mole.aoLabels, Mole.basOffset, Mole.nbas, List.length_flatMap]
  rw [List.take_of_length_le (Nat.le_refl _)]
  congr 1
  apply List.map_congr_left
  intro p _
  simp

/-- Claim C7: concatenating, shell range by shell range in `shell_ranges`
order, the basis-function index blocks of each range exactly reconstructs
the full index list returned by `get_atom_basis` for the same atom
subset — no index duplicated, none omitted, order preserved.  The same
holds for the `None` (whole-molecule) subset. -/
theorem claim_C7_basis_ranges_reconstruct (mol : Mole) (atoms : List Nat) :
    ((shell_ranges mol (.listSel atoms)).flatMap
        (fun p => List.range' (mol.basOffset p.1) (mol.basOffset p.2 - mol.basOffset p.1)))
      = get_atom_basis mol (some atoms) none
    ∧ ((shell_ranges mol .noneSel).flatMap
        (fun p => List.range' (mol.basOffset p.1) (mol.basOffset p.2 - mol.basOffset p.1)))
      = get_atom_basis mol none none := by
  constructor
  · have hscan := shellScan_spec atoms mol.bas 0 [] (by simp) (by simp)
    have hbounds : ∀ p ∈ shell_ranges mol (.listSel atoms), p.1 ≤ p.2 := by
      intro p hp
      exact Nat.le_of_lt (hscan.2.1 p hp).1
    have hstep : ∀ p ∈ shell_ranges mol (.listSel atoms),
        List.range' (mol.basOffset p.1) (mol.basOffset p.2 - mol.basOffset p.1)
          = (expandR p).flatMap (fun j => List.range' (mol.basOffset j) (mol.basLen j)) := by
      intro p hp
      have h1 := blocks_contig mol (p.2 - p.1) p.1
      have h2 : p.1 + (p.2 - p.1) = p.2 := by
        have := hbounds p hp
        omega
      rw [h2] at h1
      exact h1.symm
    rw [flatMap_congr hstep, ← List.flatMap_assoc]
    have hcover : (shell_ranges mol (.listSel atoms)).flatMap expandR
        = (List.range mol.nbas).filter (fun j => decide (mol.shellAtom j ∈ atoms)) := by
      have h1 := hscan.1
      simp only [List.flatMap_nil, List.nil_append] at h1
      have h2 : shell_ranges mol (.listSel atoms) = shellScan atoms mol.bas 0 [] := rfl
      rw [h2, h1, selIdx_zero]
      rfl
    rw [hcover, ← filtflat]
  · have h1 : shell_ranges mol .noneSel = [(0, mol.nbas)] := rfl
    rw [h1]
    simp only [List.flatMap_singleton]
    have h2 : mol.basOffset 0 = 0 := rfl
    rw [h2, Nat.sub_zero, ← aoLen_eq]
    simp [get_atom_basis, List.range_eq_range']

/-! ### Tensors and the shell-range integral driver (`IntegralProvider.intor`)

A dense numeric array is its shape plus the flat row-major data buffer,
exactly the layout the code manipulates (`mol.intor` returns a flat
buffer that is reshaped by assigning `result.shape`).  `intor` accepts,
per tensor axis, either an explicit range pair or a list of range pairs.
On the first axis whose argument is a list of length other than one,
the code recurses once per listed range and concatenates the results
along that axis with `numpy.concatenate` (which raises
"need at least one array to concatenate" on an empty list); once every
axis carries a single range, the engine is invoked once on the
accumulated shell slice and the flat buffer is reshaped to the per-axis
basis sizes (a size mismatch would make the shape assignment raise).

The Python recursion is not structural; it is modelled with an explicit
fuel argument, and `intor` supplies fuel `argsW args + 1`, which the
equivalence lemma below proves sufficient (each recursive call strictly
decreases `argsW`). -/

structure Tensor where
  shape : List Nat
  data : List Int
deriving DecidableEq

deriving instance DecidableEq for Except

inductive Axis where
  | pr (r : Nat × Nat)
  | ls (rs : List (Nat × Nat))
deriving DecidableEq

/-- The single range carried by an axis argument that is a bare tuple or
a one-element list (the two forms `intor` accepts without recursing). -/
def isSingle : Axis → Option (Nat × Nat)
  | .pr r => some r
  | .ls [r] => some r
  | .ls _ => none

/-- The ranges listed on an axis argument. -/
def toRanges : Axis → List (Nat × Nat)
  | .pr r => [r]
  | .ls rs => rs

/-- First axis (if any) whose argument is a list of length other than
one, together with that list — the axis `intor` recurses over. -/
def findMulti : List Axis → Option (Nat × List (Nat × Nat))
  | [] => none
  | .pr _ :: rest => (findMulti rest).map (fun p => (p.1 + 1, p.2))
  | .ls [] :: _ => some (0, [])
  | .ls [_] :: rest => (findMulti rest).map (fun p => (p.1 + 1, p.2))
  | .ls (r₁ :: r₂ :: t) :: _ => some (0, r₁ :: r₂ :: t)

/-- The two entries an axis contributes to `shls_slice`. -/
def axSlice (a : Axis) : List Nat :=
  match isSingle a with
  | some r => [r.1, r.2]
  | none => []

/-- The basis-size entry an axis contributes (sum of per-shell sizes
over its single range). -/
def axSize (mol : Mole) (a : Axis) : Nat :=
  rangeSize mol ((isSingle a).getD (0, 0))

def concatErrMsg : String := "need at least one array to concatenate"
def reshapeErrMsg : String := "cannot reshape array"

/-- Row-major length of one axis-`d` super-row of a tensor. -/
def rowLen (d : Nat) (t : Tensor) : Nat := (t.shape.drop d).prod

/-- Number of axis-`d` super-rows of a tensor. -/
def outerCnt (d : Nat) (t : Tensor) : Nat := (t.shape.take d).prod

/-- `numpy.concatenate(ts, axis=d)` on row-major flat buffers: for each
outer index, the super-rows of the operands are appended in operand
order; an empty operand list raises. -/
def concatAxis (d : Nat) (ts : List Tensor) : Except String Tensor :=
  match ts with
  | [] => .error concatErrMsg
  | t :: _ =>
    .ok { shape := t.shape.set d ((ts.map (fun u => u.shape.getD d 0)).sum)
          data := (List.range (outerCnt d t)).flatMap
            (fun o => ts.flatMap
              (fun u => (u.data.drop (o * rowLen d u)).take (rowLen d u))) }

/-- Sequencing of fallible subcomputations: the first error (in order)
propagates, as the first raising recursive call would in Python. -/
def exSeq : List (Except String Tensor) → Except String (List Tensor)
  | [] => .ok []
  | .error e :: _ => .error e
  | .ok t :: rest =>
    match exSeq rest with
    | .error e => .error e
    | .ok ts => .ok (t :: ts)

/-- `result = mol.intor(name, ...).view(); result.shape = basis_size`:
reshaping a flat buffer, which raises when the total size disagrees. -/
def reshapeTo (sizes : List Nat) (buf : List Int) : Except String Tensor :=
  if buf.length = sizes.prod then .ok ⟨sizes, buf⟩ else .error reshapeErrMsg

/-- Recursion measure: total number of listed ranges. -/
def axisW : Axis → Nat
  | .pr _ => 1
  | .ls rs => rs.length

def argsW (args : List Axis) : Nat := (args.map axisW).sum

/-- `IntegralProvider.intor`, with fuel bounding the recursion depth. -/
def intorFuel (mol : Mole) (name : String) : Nat → List Axis → Except String Tensor
  | 0, _ => .error "fuel"
  | fuel + 1, args =>
    match findMulti args with
    | none =>
      reshapeTo (args.map (axSize mol)) (mol.engine name (args.flatMap axSlice))
    | some (dim, rs) =>
      match exSeq (rs.map (fun sh => intorFuel mol name fuel (args.set dim (.pr sh)))) with
      | .error e => .error e
      | .ok ts => concatAxis dim ts

/-- `IntegralProvider.intor`; the fuel `argsW args + 1` is proven
sufficient by the equivalence with `intorSpec`. -/
def intor (mol : Mole) (name : String) (args : List Axis) : Except String Tensor :=
  intorFuel mol name (argsW args + 1) args

/-- Modelled from the spec: the direct assembly of the block tensor over
the Cartesian product of per-axis range lists (spec 4.3 and 9) — axes
are resolved left to right, each axis concatenating, in the listed
order, the sub-tensors of its ranges; once all axes are resolved the
engine is invoked exactly once with the accumulated shell slice and the
flat result is reshaped to the per-axis basis sizes. -/
def intorSpec (mol : Mole) (name : String) :
    List (Nat × Nat) → List (List (Nat × Nat)) → Except String Tensor
  | done, [] =>
    reshapeTo (done.map (rangeSize mol))
      (mol.engine name (done.flatMap (fun r => [r.1, r.2])))
  | done, rs :: rest =>
    match exSeq (rs.map (fun r => intorSpec mol name (done ++ [r]) rest)) with
    | .error e => .error e
    | .ok ts => concatAxis done.length ts

/-! ### Atom-indexed query layer -/

/-- `IntegralProvider.intor_atoms`. -/
def intor_atoms (mol : Mole) (name : String) (sels : List AtomSel) : Except String Tensor :=
  intor mol name (sels.map (fun s => Axis.ls (shell_ranges mol s)))

def get_ovlp (mol : Mole) (a1 a2 : AtomSel) : Except String Tensor :=
  intor_atoms mol "int1e_ovlp_sph" [a1, a2]

def get_kin (mol : Mole) (a1 a2 : AtomSel) : Except String Tensor :=
  intor_atoms mol "int1e_kin" [a1, a2]

def get_ext_pot (mol : Mole) (a1 a2 : AtomSel) : Except String Tensor :=
  intor_atoms mol "int1e_nuc" [a1, a2]

/-- numpy elementwise `+` of two equal-shape arrays. -/
def tensorAdd (t u : Tensor) : Tensor :=
  ⟨t.shape, List.zipWith (· + ·) t.data u.data⟩

def get_hcore (mol : Mole) (a1 a2 : AtomSel) : Except String Tensor :=
  match get_kin mol a1 a2 with
  | .error e => .error e
  | .ok k =>
    match get_ext_pot mol a1 a2 with
    | .error e => .error e
    | .ok v => .ok (tensorAdd k v)

def get_eri (mol : Mole) (a1 a2 a3 a4 : AtomSel) : Except String Tensor :=
  intor_atoms mol "int2e_sph" [a1, a2, a3, a4]

/-- Product of the per-pair widths of a flattened shell slice; used by
witness engines to return a correctly sized buffer when all shells have
basis size one. -/
def slProd : List Nat → Nat
  | a :: b :: rest => (b - a) * slProd rest
  | _ => 1

/-! ### Integral driver lemmas -/

lemma set_getD_self {α : Type} (l : List α) (d : Nat) (x : α) (h : d < l.length) :
    l.set d (l.getD d x) = l := by
  induction l generalizing d with
  | nil => simp at h
  | cons a t ih =>
    cases d with
    | zero => rfl
    | succ d =>
      show a :: t.set d (t.getD d x) = a :: t
      rw [ih d (by simpa using h)]

lemma getD_append_len {α : Type} (l₁ l₂ : List α) (x d : α) :
    (l₁ ++ x :: l₂).getD l₁.length d = x := by
  rw [List.getD_eq_getElem?_getD, List.getElem?_append]
  simp

lemma set_append_len {α : Type} (l₁ l₂ : List α) (x y : α) :
    (l₁ ++ x :: l₂).set l₁.length y = l₁ ++ y :: l₂ := by
  rw [List.set_append]
  simp

lemma chunks_join (k : Nat) :
    ∀ (n : Nat) (l : List Int), l.length = n * k →
      (List.range n).flatMap (fun o => (l.drop (o * k)).take k) = l := by
  intro n
  induction n with
  | zero =>
    intro l h
    simp only [Nat.zero_mul] at h
    rw [List.length_eq_zero] at h
    subst h
    rfl
  | succ n ih =>
    intro l h
    have hsplit : (n + 1) * k = n * k + k := by ring
    rw [hsplit] at h
    rw [List.range_succ_eq_map, List.flatMap_cons]
    simp only [Nat.zero_mul, List.drop_zero]
    rw [List.flatMap_map]
    have h2 : (List.range n).flatMap (fun o => (l.drop (Nat.succ o * k)).take k)
        = (List.range n).flatMap (fun o => ((l.drop k).drop (o * k)).take k) := by
      apply flatMap_congr
      intro o _
      rw [List.drop_drop]
      have harith : Nat.succ o * k = k + o * k := by
        rw [Nat.succ_mul]
        omega
      rw [harith]
    have h3 : (l.drop k).length = n * k := by
      rw [List.length_drop]
      omega
    have h4 : (List.range n).flatMap (fun o => ((l.drop k).drop (o * k)).take k)
        = l.drop k := ih (l.drop k) h3
    calc l.take k ++ (List.range n).flatMap (fun o => (l.drop (Nat.succ o * k)).take k)
        = l.take k ++ (List.range n).flatMap (fun o => ((l.drop k).drop (o * k)).take k) := by
          rw [h2]
      _ = l.take k ++ l.drop k := by rw [h4]
      _ = l := List.take_append_drop k l

lemma concat_singleton (d : Nat) (t : Tensor) (hd : d < t.shape.length)
    (hw : t.data.length = t.shape.prod) :
    concatAxis d [t] = .ok t := by
  have h1 : t.shape.set d (([t].map (fun u => u.shape.getD d 0)).sum) = t.shape := by
    simp only [List.map_cons, List.map_nil, List.sum_cons, List.sum_nil, Nat.add_zero]
    exact set_getD_self t.shape d 0 hd
  have h2 : (List.range (outerCnt d t)).flatMap
        (fun o => [t].flatMap
          (fun u => (u.data.drop (o * rowLen d u)).take (rowLen d u))) = t.data := by
    have h3 : ∀ o, [t].flatMap
        (fun u => (u.data.drop (o * rowLen d u)).take (rowLen d u))
        = (t.data.drop (o * rowLen d t)).take (rowLen d t) := by
      intro o
      exact List.flatMap_singleton _ _
    rw [flatMap_congr (fun o _ => h3 o)]
    apply chunks_join
    have h5 : t.shape.prod = (t.shape.take d).prod * (t.shape.drop d).prod := by
      conv_lhs => rw [← List.take_append_drop d t.shape]
      rw [List.prod_append]
    rw [hw, h5]
    rfl
  simp only [concatAxis]
  rw [h1, h2]

lemma exSeq_ok_forall {α : Type} (f : α → Except String Tensor) :
    ∀ (l : List α) (ts : List Tensor), exSeq (l.map f) = .ok ts →
      List.Forall₂ (fun x u => f x = .ok u) l ts := by
  intro l
  induction l with
  | nil =>
    intro ts h
    simp only [List.map_nil, exSeq, Except.ok.injEq] at h
    subst h
    exact List.Forall₂.nil
  | cons x l ih =>
    intro ts h
    rcases hx : f x with e | t
    · rw [List.map_cons, hx] at h
      simp [exSeq] at h
    · rw [List.map_cons, hx] at h
      rcases hr : exSeq (l.map f) with e' | ts'
      · rw [show exSeq (Except.ok t :: l.map f) = .error e' by simp [exSeq, hr]] at h
        cases h
      · rw [show exSeq (Except.ok t :: l.map f) = .ok (t :: ts') by simp [exSeq, hr]] at h
        cases h
        exact List.Forall₂.cons hx (ih ts' hr)

lemma forall₂_map_eq {α β γ : Type} {P : α → β → Prop} {l : List α} {ts : List β}
    (h : List.Forall₂ P l ts) (f : α → γ) (g : β → γ)
    (hfg : ∀ a b, P a b → g b = f a) : ts.map g = l.map f := by
  induction h with
  | nil => rfl
  | cons hab htail ihh => simp [hfg _ _ hab, ihh]

lemma forall₂_mem_right {α β : Type} {P : α → β → Prop} {l : List α} {ts : List β}
    (h : List.Forall₂ P l ts) : ∀ b ∈ ts, ∃ a ∈ l, P a b := by
  induction h with
  | nil => intro b hb; cases hb
  | cons hab htail ihh =>
    intro b hb
    rcases List.mem_cons.mp hb with hb | hb
    · subst hb
      exact ⟨_, List.mem_cons_self _ _, hab⟩
    · rcases ihh b hb with ⟨a, ha, hP⟩
      exact ⟨a, List.mem_cons_of_mem _ ha, hP⟩

lemma specWf (mol : Mole) (name : String) :
    ∀ (rest : List (List (Nat × Nat))) (done : List (Nat × Nat)) (t : Tensor),
      intorSpec mol name done rest = .ok t →
      t.shape = done.map (rangeSize mol)
          ++ rest.map (fun rs => (rs.map (fun r => rangeSize mol r)).sum)
      ∧ t.data.length = t.shape.prod := by
  intro rest
  induction rest with
  | nil =>
    intro done t h
    simp only [intorSpec, reshapeTo] at h
    split at h
    · rename_i hlen
      cases h
      refine ⟨by simp, ?_⟩
      simpa using hlen
    · cases h
  | cons rs rest' ih =>
    intro done t h
    simp only [intorSpec] at h
    rcases hseq : exSeq (rs.map (fun r => intorSpec mol name (done ++ [r]) rest')) with e | ts
    · rw [hseq] at h
      cases h
    · rw [hseq] at h
      have hfa := exSeq_ok_forall _ rs ts hseq
      have hfa2 : List.Forall₂ (fun (r : Nat × Nat) (u : Tensor) =>
          u.shape = done.map (rangeSize mol) ++ rangeSize mol r
              :: rest'.map (fun l => (l.map (fun q => rangeSize mol q)).sum)
            ∧ u.data.length = u.shape.prod) rs ts := by
        refine hfa.imp (fun r u hru => ?_)
        obtain ⟨hs, hw⟩ := ih (done ++ [r]) u hru
        refine ⟨?_, hw⟩
        rw [hs]
        simp
      cases ts with
      | nil =>
        simp [concatAxis] at h
      | cons t₀ ts' =>
        rcases List.forall₂_cons_right_iff.mp hfa2 with ⟨r₀, rs', ⟨hshape₀, hwf₀⟩, hfa', hrs⟩
        simp only [concatAxis] at h
        cases h
        have hDlen : (done.map (rangeSize mol)).length = done.length := List.length_map _ _
        have hgetD : ∀ u ∈ (t₀ :: ts'), ∃ c,
            u.shape = done.map (rangeSize mol) ++ c
                :: rest'.map (fun l => (l.map (fun q => rangeSize mol q)).sum)
            ∧ u.data.length = u.shape.prod
            ∧ u.shape.getD done.length 0 = c := by
          intro u hu
          rcases forall₂_mem_right hfa2 u hu with ⟨r, _, hsh, hw⟩
          refine ⟨rangeSize mol r, hsh, hw, ?_⟩
          rw [hsh, ← hDlen, getD_append_len]
        have hmapsum : ((t₀ :: ts').map (fun u => u.shape.getD done.length 0))
            = rs.map (fun r => rangeSize mol r) := by
          apply forall₂_map_eq hfa2
          intro r u hru
          rw [hru.1, ← hDlen, getD_append_len]
        constructor
        · show t₀.shape.set done.length _ = _
          rw [hmapsum, hshape₀, ← hDlen, set_append_len]
          simp
        · show ((List.range (outerCnt done.length t₀)).flatMap _).length = _
          have houter : outerCnt done.length t₀ = (done.map (rangeSize mol)).prod := by
            show (t₀.shape.take done.length).prod = _
            rw [hshape₀, ← hDlen, List.take_left]
          have hrow : ∀ u ∈ (t₀ :: ts'), rowLen done.length u
              = u.shape.getD done.length 0
                * (rest'.map (fun l => (l.map (fun q => rangeSize mol q)).sum)).prod := by
            intro u hu
            rcases hgetD u hu with ⟨c, hsh, _, hc⟩
            show (u.shape.drop done.length).prod = u.shape.getD done.length 0 * _
            rw [hc, hsh, ← hDlen, List.drop_left, List.prod_cons]
          have hulen : ∀ u ∈ (t₀ :: ts'), u.data.length
              = outerCnt done.length t₀ * rowLen done.length u := by
            intro u hu
            rcases hgetD u hu with ⟨c, hsh, hw, hc⟩
            rw [hw, houter, hrow u hu, hc, hsh]
            rw [List.prod_append, List.prod_cons]
          have hchunk : ∀ o ∈ List.range (outerCnt done.length t₀),
              ((t₀ :: ts').flatMap
                (fun u => (u.data.drop (o * rowLen done.length u)).take
                  (rowLen done.length u))).length
              = ((t₀ :: ts').map (fun u => rowLen done.length u)).sum := by
            intro o ho
            have hoO : o < outerCnt done.length t₀ := List.mem_range.mp ho
            rw [List.length_flatMap]
            congr 1
            apply List.map_congr_left
            intro u hu
            simp only [Function.comp_apply]
            rw [List.length_take, List.length_drop, hulen u hu]
            have hmul : (o + 1) * rowLen done.length u
                ≤ outerCnt done.length t₀ * rowLen done.length u :=
              Nat.mul_le_mul_right _ hoO
            rw [Nat.succ_mul] at hmul
            omega
          rw [List.length_flatMap]
          have hconst : (List.range (outerCnt done.length t₀)).map
              (List.length ∘ (fun o => (t₀ :: ts').flatMap
                (fun u => (u.data.drop (o * rowLen done.length u)).take
                  (rowLen done.length u))))
              = (List.range (outerCnt done.length t₀)).map
                (fun _ => ((t₀ :: ts').map (fun u => rowLen done.length u)).sum) := by
            apply List.map_congr_left
            intro o ho
            exact hchunk o ho
          rw [hconst, List.map_const', List.sum_replicate, List.length_range, smul_eq_mul]
          have hsumrow : ((t₀ :: ts').map (fun u => rowLen done.length u)).sum
              = (rs.map (fun r => rangeSize mol r)).sum
                * (rest'.map (fun l => (l.map (fun q => rangeSize mol q)).sum)).prod := by
            have h1 : (t₀ :: ts').map (fun u => rowLen done.length u)
                = (t₀ :: ts').map (fun u => u.shape.getD done.length 0
                  * (rest'.map (fun l => (l.map (fun q => rangeSize mol q)).sum)).prod) := by
              apply List.map_congr_left
              intro u hu
              exact hrow u hu
            rw [h1, List.sum_map_mul_right]
            rw [show ((t₀ :: ts').map (fun u => u.shape.getD done.length 0)).sum
                = (rs.map (fun r => rangeSize mol r)).sum by rw [hmapsum]]
          rw [hsumrow]
          have hS : (((t₀ :: ts').map (fun u => u.shape.getD done.length 0)).sum)
              = (rs.map (fun r => rangeSize mol r)).sum := by rw [hmapsum]
          show _ = (t₀.shape.set done.length _).prod
          rw [hS, houter, hshape₀, ← hDlen, set_append_len, List.prod_append, List.prod_cons]

lemma specPeel (mol : Mole) (name : String) (done : List (Nat × Nat)) (r : Nat × Nat)
    (rest : List (List (Nat × Nat))) :
    intorSpec mol name done ([r] :: rest) = intorSpec mol name (done ++ [r]) rest := by
  simp only [intorSpec, List.map_cons, List.map_nil]
  rcases hsub : intorSpec mol name (done ++ [r]) rest with e | t
  · rfl
  · have hwf := specWf mol name rest (done ++ [r]) t hsub
    have hd : done.length < t.shape.length := by
      rw [hwf.1]
      simp only [List.length_append, List.length_map, List.length_cons, List.length_nil]
      omega
    rw [show exSeq [Except.ok t] = .ok [t] by simp [exSeq]]
    exact concat_singleton done.length t hd hwf.2

lemma peelAll (mol : Mole) (name : String) :
    ∀ (ps : List (Nat × Nat)) (done : List (Nat × Nat)) (rest : List (List (Nat × Nat))),
      intorSpec mol name done (ps.map (fun r => [r]) ++ rest)
        = intorSpec mol name (done ++ ps) rest := by
  intro ps
  induction ps with
  | nil =>
    intro done rest
    simp
  | cons p ps ih =>
    intro done rest
    simp only [List.map_cons, List.cons_append]
    rw [specPeel, ih]
    congr 1
    simp

lemma spec_empty_axis (mol : Mole) (name : String) :
    ∀ (rest : List (List (Nat × Nat))) (done : List (Nat × Nat)),
      [] ∈ rest → intorSpec mol name done rest = .error concatErrMsg := by
  intro rest
  induction rest with
  | nil =>
    intro done h
    cases h
  | cons rs rest' ih =>
    intro done h
    by_cases hrs : rs = []
    · subst hrs
      rfl
    · have hmem : [] ∈ rest' := by
        rcases List.mem_cons.mp h with h | h
        · exact absurd h.symm hrs
        · exact h
      rcases rs with _ | ⟨r, rs₂⟩
      · exact absurd rfl hrs
      · simp only [intorSpec, List.map_cons]
        rw [ih (done ++ [r]) hmem]
        rfl

lemma single_facts (mol : Mole) {a : Axis} {r : Nat × Nat} (h : isSingle a = some r) :
    toRanges a = [r] ∧ axSlice a = [r.1, r.2] ∧ axSize mol a = rangeSize mol r := by
  rcases a with r' | rs
  · cases h
    exact ⟨rfl, rfl, rfl⟩
  · rcases rs with _ | ⟨r1, rs1⟩
    · cases h
    · rcases rs1 with _ | ⟨r2, t⟩
      · cases h
        exact ⟨rfl, rfl, rfl⟩
      · cases h

lemma findMulti_none : ∀ {args : List Axis}, findMulti args = none →
    ∀ a ∈ args, ∃ r, isSingle a = some r := by
  intro args
  induction args with
  | nil =>
    intro _ a ha
    cases ha
  | cons a rest ih =>
    intro h b hb
    rcases a with r' | rs
    · simp only [findMulti, Option.map_eq_none'] at h
      rcases List.mem_cons.mp hb with hb | hb
      · subst hb
        exact ⟨r', rfl⟩
      · exact ih h b hb
    · rcases rs with _ | ⟨r1, rs1⟩
      · cases h
      · rcases rs1 with _ | ⟨r2, t⟩
        · simp only [findMulti, Option.map_eq_none'] at h
          rcases List.mem_cons.mp hb with hb | hb
          · subst hb
            exact ⟨r1, rfl⟩
          · exact ih h b hb
        · cases h

lemma findMulti_some : ∀ {args : List Axis} {dim : Nat} {rs : List (Nat × Nat)},
    findMulti args = some (dim, rs) →
    args[dim]? = some (.ls rs) ∧ rs.length ≠ 1
    ∧ ∀ a ∈ args.take dim, ∃ r, isSingle a = some r := by
  intro args
  induction args with
  | nil =>
    intro dim rs h
    cases h
  | cons a rest ih =>
    intro dim rs h
    rcases a with r' | rs₀
    · simp only [findMulti, Option.map_eq_some'] at h
      rcases h with ⟨⟨d', rs'⟩, hrest, heq⟩
      cases heq
      obtain ⟨hg, hl, hp⟩ := ih hrest
      refine ⟨by simpa using hg, hl, ?_⟩
      intro b hb
      rw [List.take_succ_cons] at hb
      rcases List.mem_cons.mp hb with hb | hb
      · subst hb
        exact ⟨r', rfl⟩
      · exact hp b hb
    · rcases rs₀ with _ | ⟨r1, rs1⟩
      · cases h
        exact ⟨by simp, by simp, by intro b hb; cases hb⟩
      · rcases rs1 with _ | ⟨r2, t⟩
        · simp only [findMulti, Option.map_eq_some'] at h
          rcases h with ⟨⟨d', rs'⟩, hrest, heq⟩
          cases heq
          obtain ⟨hg, hl, hp⟩ := ih hrest
          refine ⟨by simpa using hg, hl, ?_⟩
          intro b hb
          rw [List.take_succ_cons] at hb
          rcases List.mem_cons.mp hb with hb | hb
          · subst hb
            exact ⟨r1, rfl⟩
          · exact hp b hb
        · cases h
          exact ⟨by simp, by simp, by intro b hb; cases hb⟩

lemma argsW_set : ∀ (args : List Axis) (i : Nat) (x ax : Axis), args[i]? = some ax →
    argsW (args.set i x) + axisW ax = argsW args + axisW x := by
  intro args
  induction args with
  | nil =>
    intro i x ax h
    cases h
  | cons a rest ih =>
    intro i x ax h
    cases i with
    | zero =>
      rw [List.getElem?_cons_zero] at h
      cases h
      simp only [List.set_cons_zero, argsW, List.map_cons, List.sum_cons]
      omega
    | succ i =>
      rw [List.getElem?_cons_succ] at h
      have hih := ih i x ax h
      show argsW (a :: rest.set i x) + axisW ax = _
      simp only [argsW, List.map_cons, List.sum_cons] at hih ⊢
      omega

lemma intorFuel_eq_spec (mol : Mole) (name : String) :
    ∀ (fuel : Nat) (args : List Axis), argsW args < fuel →
      intorFuel mol name fuel args = intorSpec mol name [] (args.map toRanges) := by
  intro fuel
  induction fuel with
  | zero =>
    intro args h
    exact absurd h (Nat.not_lt_zero _)
  | succ fuel ih =>
    intro args hW
    rcases hfm : findMulti args with _ | ⟨dim, rs⟩
    · have hsingles := findMulti_none hfm
      have hL : intorFuel mol name (fuel + 1) args
          = reshapeTo (args.map (axSize mol)) (mol.engine name (args.flatMap axSlice)) := by
        simp [intorFuel, hfm]
      have hmapw : args.map toRanges
          = (args.map (fun a => (isSingle a).getD (0, 0))).map (fun r => [r]) := by
        rw [List.map_map]
        apply List.map_congr_left
        intro a ha
        rcases hsingles a ha with ⟨r, hr⟩
        simp [Function.comp_apply, (single_facts mol hr).1, hr]
      have hR : intorSpec mol name [] (args.map toRanges)
          = intorSpec mol name (args.map (fun a => (isSingle a).getD (0, 0))) [] := by
        rw [hmapw]
        have hpa := peelAll mol name (args.map (fun a => (isSingle a).getD (0, 0))) [] []
        simpa using hpa
      have hsz : args.map (axSize mol)
          = (args.map (fun a => (isSingle a).getD (0, 0))).map (rangeSize mol) := by
        rw [List.map_map]
        apply List.map_congr_left
        intro a ha
        rcases hsingles a ha with ⟨r, hr⟩
        simp [Function.comp_apply, axSize, hr]
      have hsl : args.flatMap axSlice
          = (args.map (fun a => (isSingle a).getD (0, 0))).flatMap (fun r => [r.1, r.2]) := by
        rw [List.flatMap_map]
        apply flatMap_congr
        intro a ha
        rcases hsingles a ha with ⟨r, hr⟩
        simp [axSlice, hr]
      rw [hL, hR]
      simp only [intorSpec]
      rw [hsz, hsl]
    · obtain ⟨hget, hlen1, hpre⟩ := findMulti_some hfm
      have hlt : dim < args.length := by
        by_contra hc
        rw [List.getElem?_eq_none (by omega)] at hget
        cases hget
      have hdlen : (args.take dim).length = dim := by
        rw [List.length_take]
        omega
      have hgetelem : args[dim] = Axis.ls rs := by
        have h2 := List.getElem?_eq_getElem hlt
        rw [h2] at hget
        exact (Option.some.injEq _ _).mp hget
      have hdecomp : args = args.take dim ++ Axis.ls rs :: args.drop (dim + 1) := by
        conv_lhs => rw [← List.take_append_drop dim args]
        congr 1
        rw [List.drop_eq_getElem_cons hlt, hgetelem]
      have hprewrap : (args.take dim).map toRanges
          = ((args.take dim).map (fun a => (isSingle a).getD (0, 0))).map (fun r => [r]) := by
        rw [List.map_map]
        apply List.map_congr_left
        intro a ha
        rcases hpre a ha with ⟨r, hr⟩
        simp [Function.comp_apply, (single_facts mol hr).1, hr]
      have hpreslen : ((args.take dim).map (fun a => (isSingle a).getD (0, 0))).length = dim := by
        rw [List.length_map, hdlen]
      have hmapdecomp : args.map toRanges
          = (args.take dim).map toRanges ++ rs :: (args.drop (dim + 1)).map toRanges := by
        conv_lhs => rw [hdecomp]
        simp [toRanges]
      have hR : intorSpec mol name [] (args.map toRanges)
          = intorSpec mol name ((args.take dim).map (fun a => (isSingle a).getD (0, 0)))
              (rs :: (args.drop (dim + 1)).map toRanges) := by
        rw [hmapdecomp, hprewrap]
        have hpa := peelAll mol name ((args.take dim).map (fun a => (isSingle a).getD (0, 0)))
          [] (rs :: (args.drop (dim + 1)).map toRanges)
        simpa using hpa
      have hsetmap : ∀ sh : Nat × Nat, (args.set dim (Axis.pr sh)).map toRanges
          = (args.take dim).map toRanges ++ [sh] :: (args.drop (dim + 1)).map toRanges := by
        intro sh
        have hset := set_append_len (args.take dim) (args.drop (dim + 1))
          (Axis.ls rs) (Axis.pr sh)
        rw [hdlen] at hset
        conv_lhs => rw [hdecomp]
        rw [hset]
        simp [toRanges]
      have hWset : ∀ sh ∈ rs, argsW (args.set dim (Axis.pr sh)) < fuel := by
        intro sh hsh
        have heq := argsW_set args dim (Axis.pr sh) (Axis.ls rs) hget
        have hrs2 : 2 ≤ rs.length := by
          rcases rs with _ | ⟨r1, rs1⟩
          · cases hsh
          · rcases rs1 with _ | ⟨r2, t⟩
            · simp at hlen1
            · simp only [List.length_cons]
              omega
        simp only [axisW] at heq
        omega
      have hsub : ∀ sh ∈ rs, intorFuel mol name fuel (args.set dim (Axis.pr sh))
          = intorSpec mol name
              (((args.take dim).map (fun a => (isSingle a).getD (0, 0))) ++ [sh])
              ((args.drop (dim + 1)).map toRanges) := by
        intro sh hsh
        rw [ih _ (hWset sh hsh), hsetmap sh, hprewrap]
        rw [show ((args.take dim).map (fun a => (isSingle a).getD (0, 0))).map (fun r => [r])
              ++ [sh] :: (args.drop (dim + 1)).map toRanges
            = (((args.take dim).map (fun a => (isSingle a).getD (0, 0))) ++ [sh]).map
                (fun r => [r]) ++ (args.drop (dim + 1)).map toRanges from by simp]
        exact peelAll mol name _ [] _
      have hL : intorFuel mol name (fuel + 1) args
          = match exSeq (rs.map (fun sh => intorFuel mol name fuel (args.set dim (.pr sh)))) with
            | .error e => .error e
            | .ok ts => concatAxis dim ts := by
        simp [intorFuel, hfm]
      rw [hL, hR]
      simp only [intorSpec]
      rw [List.map_congr_left (fun sh hsh => hsub sh hsh)]
      rcases hE : exSeq (rs.map (fun sh => intorSpec mol name
          (((args.take dim).map (fun a => (isSingle a).getD (0, 0))) ++ [sh])
          ((args.drop (dim + 1)).map toRanges))) with e | ts
      · rfl
      · rw [hpreslen]

/-- The fuel `argsW args + 1` used by `intor` is sufficient: `intor`
coincides with the direct Cartesian-assembly specification on all
arguments. -/
lemma intor_eq_spec (mol : Mole) (name : String) (args : List Axis) :
    intor mol name args = intorSpec mol name [] (args.map toRanges) :=
  intorFuel_eq_spec mol name (argsW args + 1) args (Nat.lt_succ_self _)

/-- Claim C1: `intor` recurses once per listed range on each multi-range
axis (leaving the other axes unchanged) and concatenates the resulting
sub-tensors along that axis in listed order; once every axis is a single
range the engine is invoked exactly once with the concatenated shell
slice and the flat buffer is reshaped so that each axis length is the
sum of per-shell basis sizes over that axis — that is, `intor` equals
the direct Cartesian-assembly specification `intorSpec`, and every
successful result has the per-axis summed-basis-size shape. -/
theorem claim_C1_intor_assembly (mol : Mole) (name : String) (args : List Axis) :
    intor mol name args = intorSpec mol name [] (args.map toRanges)
    ∧ ∀ t, intor mol name args = .ok t →
        t.shape = (args.map toRanges).map
          (fun rs => (rs.map (fun r => rangeSize mol r)).sum) := by
  refine ⟨intor_eq_spec mol name args, ?_⟩
  intro t ht
  rw [intor_eq_spec] at ht
  have h := (specWf mol name (args.map toRanges) [] t ht).1
  simpa using h

/-- Claim C9: a bare shell-range pair at any axis position behaves
exactly as the one-element list wrapping it, all other arguments
equal. -/
theorem claim_C9_pair_vs_singleton (mol : Mole) (name : String) (args : List Axis)
    (i : Nat) (r : Nat × Nat) :
    intor mol name (args.set i (Axis.pr r)) = intor mol name (args.set i (Axis.ls [r])) := by
  rw [intor_eq_spec, intor_eq_spec]
  congr 1
  rw [List.map_set, List.map_set]
  rfl

/-- Counterexample to claim C5 as stated: the empty atom subset makes
`get_ovlp` raise the `numpy.concatenate` error instead of returning an
empty (zero-sized) tensor. -/
theorem claim_C5_counterexample :
    get_ovlp ⟨[(0, 1)], fun _ _ => []⟩ (AtomSel.listSel []) AtomSel.noneSel
      = Except.error "need at least one array to concatenate" := by decide

/-- Claim C5 as amended: for every query through `intor_atoms` (and
hence the named accessors), an atom subset whose shell-range list is
empty — in particular the empty atom subset — makes the query raise the
`numpy.concatenate` empty-sequence error instead of returning an empty
tensor. -/
theorem claim_C5_amended_empty_raises (mol : Mole) (name : String) (sels : List AtomSel)
    (h : ∃ s ∈ sels, shell_ranges mol s = []) :
    intor_atoms mol name sels = Except.error concatErrMsg := by
  obtain ⟨s, hs, hempty⟩ := h
  show intor mol name (sels.map (fun s => Axis.ls (shell_ranges mol s))) = _
  rw [intor_eq_spec]
  apply spec_empty_axis
  rw [List.map_map]
  refine List.mem_map.mpr ⟨s, hs, ?_⟩
  simp [Function.comp_apply, hempty, toRanges]

/-- Witness for the amended claim C5 at a concrete one-shell molecule. -/
theorem claim_C5_witness :
    (∃ s ∈ [AtomSel.listSel ([] : List Nat)],
      shell_ranges ⟨[(0, 1)], fun _ _ => []⟩ s = [])
    ∧ intor_atoms ⟨[(0, 1)], fun _ _ => []⟩ "int1e_kin" [AtomSel.listSel []]
        = Except.error concatErrMsg :=
  ⟨⟨AtomSel.listSel [], by decide, by decide⟩,
    claim_C5_amended_empty_raises _ _ _ ⟨AtomSel.listSel [], by decide, by decide⟩⟩

/-- Claim C4: `get_hcore(a1, a2)` is the elementwise sum of
`get_kin(a1, a2)` and `get_ext_pot(a1, a2)`, both evaluated on the same
subsets: whenever both succeed, `get_hcore` succeeds with the
elementwise (equal-shape) sum of the two matrices. -/
theorem claim_C4_hcore_sum (mol : Mole) (a1 a2 : AtomSel) (K E : Tensor)
    (hK : get_kin mol a1 a2 = .ok K) (hE : get_ext_pot mol a1 a2 = .ok E) :
    get_hcore mol a1 a2 = .ok (tensorAdd K E)
    ∧ K.shape = E.shape
    ∧ (tensorAdd K E).data = List.zipWith (· + ·) K.data E.data := by
  refine ⟨?_, ?_, rfl⟩
  · show (match get_kin mol a1 a2 with
      | .error e => Except.error e
      | .ok k => match get_ext_pot mol a1 a2 with
        | .error e => Except.error e
        | .ok v => Except.ok (tensorAdd k v)) = _
    rw [hK, hE]
  · have hK2 : intorSpec mol "int1e_kin"
        [] (([a1, a2].map (fun s => Axis.ls (shell_ranges mol s))).map toRanges) = .ok K := by
      rw [← intor_eq_spec]
      exact hK
    have hE2 : intorSpec mol "int1e_nuc"
        [] (([a1, a2].map (fun s => Axis.ls (shell_ranges mol s))).map toRanges) = .ok E := by
      rw [← intor_eq_spec]
      exact hE
    have h1 := (specWf mol "int1e_kin" _ [] K hK2).1
    have h2 := (specWf mol "int1e_nuc" _ [] E hE2).1
    rw [h1, h2]

/-- Witness for claim C4 at a concrete one-shell molecule whose engine
returns zero matrices of the correct size. -/
theorem claim_C4_witness :
    get_hcore ⟨[(0, 1)], fun _ s => List.replicate (slProd s) 0⟩
        (AtomSel.listSel [0]) (AtomSel.listSel [0])
      = .ok (tensorAdd ⟨[1, 1], [0]⟩ ⟨[1, 1], [0]⟩)
    ∧ (⟨[1, 1], [0]⟩ : Tensor).shape = (⟨[1, 1], [0]⟩ : Tensor).shape
    ∧ (tensorAdd ⟨[1, 1], [0]⟩ ⟨[1, 1], [0]⟩).data
        = List.zipWith (· + ·) [0] [0] :=
  claim_C4_hcore_sum ⟨[(0, 1)], fun _ s => List.replicate (slProd s) 0⟩
    (AtomSel.listSel [0]) (AtomSel.listSel [0]) ⟨[1, 1], [0]⟩ ⟨[1, 1], [0]⟩
    (by decide) (by decide)

end LocalMP2
